import Mathlib

/-!
Shallow embedding of `src/lib.rs` from spawn-bitmath: the bit-scan functions
`most_significant_bit` and `least_significant_bit` on 128-bit unsigned
integers.  A `u128` value is modelled as a `Nat`, with the bound
`value < 2^128` carried as a hypothesis where it matters; the Rust
`Result` success/error split is modelled as `Except String Nat`, the error
carrying the message string from the source.  Each `if` block of the two
seven-step branch ladders is one Lean function that performs that block and
then continues with the remainder of the ladder, so the straight-line
mutation of `x` and `r` in the source becomes explicit argument passing.
-/

/-- Last MSB ladder step from the source: `if x >= 0x2 { r += 1 }`. -/
def msb1 (x r : Nat) : Nat :=
  if x ≥ 0x2 then r + 1 else r

/-- MSB ladder step `if x >= 0x4 { x >>= 2; r += 2 }` followed by the rest. -/
def msb2 (x r : Nat) : Nat :=
  if x ≥ 0x4 then msb1 (x >>> 2) (r + 2) else msb1 x r

/-- MSB ladder step `if x >= 0x10 { x >>= 4; r += 4 }` followed by the rest. -/
def msb4 (x r : Nat) : Nat :=
  if x ≥ 0x10 then msb2 (x >>> 4) (r + 4) else msb2 x r

/-- MSB ladder step `if x >= 0x100 { x >>= 8; r += 8 }` followed by the rest. -/
def msb8 (x r : Nat) : Nat :=
  if x ≥ 0x100 then msb4 (x >>> 8) (r + 8) else msb4 x r

/-- MSB ladder step `if x >= 0x10000 { x >>= 16; r += 16 }` followed by the
rest. -/
def msb16 (x r : Nat) : Nat :=
  if x ≥ 0x10000 then msb8 (x >>> 16) (r + 16) else msb8 x r

/-- MSB ladder step `if x >= 0x100000000 { x >>= 32; r += 32 }` followed by
the rest. -/
def msb32 (x r : Nat) : Nat :=
  if x ≥ 0x100000000 then msb16 (x >>> 32) (r + 32) else msb16 x r

/-- First MSB ladder step `if x >= 0x10000000000000000 { x >>= 64; r += 64 }`
followed by the rest. -/
def msb64 (x r : Nat) : Nat :=
  if x ≥ 0x10000000000000000 then msb32 (x >>> 64) (r + 64) else msb32 x r

/-- Embedding of `most_significant_bit` from `src/lib.rs`: reject a zero
value with the error message from the source, otherwise run the ladder on
`x = value`, `r = 0`. -/
def most_significant_bit (value : Nat) : Except String Nat :=
  if value = 0 then Except.error "Input must be greater than 0"
  else Except.ok (msb64 value 0)

/-- Last LSB ladder step from the source: `if x & 0x1 > 0 { r -= 1 }`. -/
def lsb1 (x r : Nat) : Nat :=
  if x &&& 0x1 > 0 then r - 1 else r

/-- LSB ladder step `if x & 0x3 > 0 { r -= 2 } else { x >>= 2 }` followed by
the rest. -/
def lsb2 (x r : Nat) : Nat :=
  if x &&& 0x3 > 0 then lsb1 x (r - 2) else lsb1 (x >>> 2) r

/-- LSB ladder step `if x & 0xF > 0 { r -= 4 } else { x >>= 4 }` followed by
the rest. -/
def lsb4 (x r : Nat) : Nat :=
  if x &&& 0xF > 0 then lsb2 x (r - 4) else lsb2 (x >>> 4) r

/-- LSB ladder step `if x & 0xFF > 0 { r -= 8 } else { x >>= 8 }` followed by
the rest. -/
def lsb8 (x r : Nat) : Nat :=
  if x &&& 0xFF > 0 then lsb4 x (r - 8) else lsb4 (x >>> 8) r

/-- LSB ladder step `if x & 0xFFFF > 0 { r -= 16 } else { x >>= 16 }`
followed by the rest. -/
def lsb16 (x r : Nat) : Nat :=
  if x &&& 0xFFFF > 0 then lsb8 x (r - 16) else lsb8 (x >>> 16) r

/-- LSB ladder step `if x & 0xFFFFFFFF > 0 { r -= 32 } else { x >>= 32 }`
followed by the rest. -/
def lsb32 (x r : Nat) : Nat :=
  if x &&& 0xFFFFFFFF > 0 then lsb16 x (r - 32) else lsb16 (x >>> 32) r

/-- First LSB ladder step from the source, with its 128-bit-wide mask
`if x & 0xFFFFFFFFFFFFFFFFFFFFFFFFFFFFFFFF > 0 { r -= 64 } else { x >>= 64 }`,
followed by the rest. -/
def lsb64 (x r : Nat) : Nat :=
  if x &&& 0xFFFFFFFFFFFFFFFFFFFFFFFFFFFFFFFF > 0 then lsb32 x (r - 64)
  else lsb32 (x >>> 64) r

/-- Embedding of `least_significant_bit` from `src/lib.rs`: reject a zero
value with the error message from the source, otherwise run the ladder on
`x = value`, `r = 127`. -/
def least_significant_bit (value : Nat) : Except String Nat :=
  if value = 0 then Except.error "Input must be greater than 0"
  else Except.ok (lsb64 value 127)

/-- Index of the lowest set bit of a nonzero natural number (`0` on `0`);
specification-side notion used to state properties of the LSB ladder. -/
def lowBit (x : Nat) : Nat :=
  if h : x = 0 then 0
  else if x % 2 = 1 then 0
  else lowBit (x / 2) + 1
termination_by x
decreasing_by omega

/-- Unfolding `lowBit` on an odd number. -/
theorem lowBit_of_odd {x : Nat} (h : x % 2 = 1) : lowBit x = 0 := by
  rw [lowBit]
  have hx : ¬x = 0 := by omega
  simp [hx, h]

/-- Unfolding `lowBit` on a nonzero even number. -/
theorem lowBit_of_even {x : Nat} (hx : x ≠ 0) (h : x % 2 = 0) :
    lowBit x = lowBit (x / 2) + 1 := by
  rw [lowBit]
  simp [hx, h]

/-- Every nonzero natural number is a power of two times an odd number, the
exponent being `lowBit`. -/
theorem lowBit_decomp : ∀ x : Nat, x ≠ 0 → ∃ m, x = 2 ^ lowBit x * (2 * m + 1) := by
  intro x
  induction x using Nat.strong_induction_on with
  | _ x ih =>
    intro hx
    by_cases hpar : x % 2 = 1
    · exact ⟨x / 2, by rw [lowBit_of_odd hpar]; omega⟩
    · have hpar0 : x % 2 = 0 := by omega
      have hhalf : x / 2 ≠ 0 := by omega
      obtain ⟨m, hm⟩ := ih (x / 2) (by omega) hhalf
      refine ⟨m, ?_⟩
      rw [lowBit_of_even hx hpar0, pow_succ]
      calc x = 2 * (x / 2) := by omega
        _ = 2 * (2 ^ lowBit (x / 2) * (2 * m + 1)) := by rw [← hm]
        _ = 2 ^ lowBit (x / 2) * 2 * (2 * m + 1) := by ring

/-- `lowBit` of `2 ^ a * odd` is `a`. -/
theorem lowBit_two_pow_mul_odd (a m : Nat) : lowBit (2 ^ a * (2 * m + 1)) = a := by
  induction a with
  | zero => rw [pow_zero, one_mul]; exact lowBit_of_odd (by omega)
  | succ a ih =>
    have hy : 2 ^ (a + 1) * (2 * m + 1) = 2 * (2 ^ a * (2 * m + 1)) := by ring
    have hx : 2 ^ (a + 1) * (2 * m + 1) ≠ 0 := by positivity
    have heven : 2 ^ (a + 1) * (2 * m + 1) % 2 = 0 := by
      rw [hy]; exact Nat.mul_mod_right 2 _
    rw [lowBit_of_even hx heven, hy, Nat.mul_div_cancel_left _ (by norm_num), ih]

/-- Dividing out `2 ^ k` from `2 ^ a * odd` when `k ≤ a`. -/
theorem decomp_shiftRight (a m k : Nat) (hk : k ≤ a) :
    (2 ^ a * (2 * m + 1)) >>> k = 2 ^ (a - k) * (2 * m + 1) := by
  rw [Nat.shiftRight_eq_div_pow]
  have hsplit : 2 ^ a = 2 ^ k * 2 ^ (a - k) := by
    rw [← pow_add]
    congr 1
    omega
  rw [hsplit, mul_assoc, Nat.mul_div_cancel_left _ (Nat.two_pow_pos k)]

/-- `2 ^ a * odd` is divisible by `2 ^ k` when `k ≤ a`. -/
theorem decomp_mod_eq_zero (a m k : Nat) (hk : k ≤ a) :
    2 ^ a * (2 * m + 1) % 2 ^ k = 0 := by
  obtain ⟨c, hc⟩ : 2 ^ k ∣ 2 ^ a * (2 * m + 1) :=
    Dvd.dvd.mul_right (pow_dvd_pow 2 hk) _
  rw [hc, Nat.mul_mod_right]

/-- `2 ^ a * odd` is not divisible by `2 ^ k` when `a < k`. -/
theorem decomp_mod_ne_zero (a m k : Nat) (hk : a < k) :
    2 ^ a * (2 * m + 1) % 2 ^ k ≠ 0 := by
  intro h
  have hdvd : 2 ^ k ∣ 2 ^ a * (2 * m + 1) := Nat.dvd_of_mod_eq_zero h
  have hdvd1 : 2 ^ (a + 1) ∣ 2 ^ a * (2 * m + 1) :=
    dvd_trans (pow_dvd_pow 2 (by omega)) hdvd
  have hmod : 2 ^ a * (2 * m + 1) % 2 ^ (a + 1) = 2 ^ a := by
    rw [pow_succ]
    calc 2 ^ a * (2 * m + 1) % (2 ^ a * 2)
        = 2 ^ a * ((2 * m + 1) % 2) := Nat.mul_mod_mul_left _ _ _
      _ = 2 ^ a := by rw [Nat.mul_add_mod]; norm_num
  obtain ⟨c, hc⟩ := hdvd1
  rw [hc, Nat.mul_mod_right] at hmod
  have := Nat.two_pow_pos a
  omega

/-- Masking `2 ^ a * odd` with `2 ^ k - 1` gives a positive result exactly
when the odd part is reachable, i.e. when `a < k`. -/
theorem decomp_and_mask_pos (a m k : Nat) :
    0 < 2 ^ a * (2 * m + 1) &&& (2 ^ k - 1) ↔ a < k := by
  rw [Nat.and_pow_two_sub_one_eq_mod]
  rcases Nat.lt_or_ge a k with h | h
  · simp only [h, iff_true]
    have := decomp_mod_ne_zero a m k h
    omega
  · simp only [decomp_mod_eq_zero a m k h]
    omega

/-- For nonzero `x`, the low `k` bits of `x` vanish exactly when
`k ≤ lowBit x`. -/
theorem mod_two_pow_eq_zero_iff {x : Nat} (hx : x ≠ 0) (k : Nat) :
    x % 2 ^ k = 0 ↔ k ≤ lowBit x := by
  obtain ⟨m, hm⟩ := lowBit_decomp x hx
  constructor
  · intro h
    by_contra hk
    exact decomp_mod_ne_zero (lowBit x) m k (by omega) (hm ▸ h)
  · intro h
    rw [hm]
    exact decomp_mod_eq_zero (lowBit x) m k h

/-- Bit `a` of `2 ^ a * odd` is set. -/
theorem testBit_decomp_self (a m : Nat) :
    Nat.testBit (2 ^ a * (2 * m + 1)) a = true := by
  rw [Nat.testBit_to_div_mod, Nat.mul_div_cancel_left _ (Nat.two_pow_pos a)]
  simp only [decide_eq_true_eq]
  omega

/-- Bits below `a` of `2 ^ a * odd` are clear. -/
theorem testBit_decomp_lt (a m j : Nat) (hj : j < a) :
    Nat.testBit (2 ^ a * (2 * m + 1)) j = false := by
  rw [Nat.testBit_to_div_mod]
  have h1 : 2 ^ a * (2 * m + 1) / 2 ^ j = 2 ^ (a - j) * (2 * m + 1) := by
    have := decomp_shiftRight a m j (by omega)
    rwa [Nat.shiftRight_eq_div_pow] at this
  have h2 : 2 ^ (a - j) * (2 * m + 1) % 2 = 0 := by
    have hsplit : 2 ^ (a - j) * (2 * m + 1) = 2 * (2 ^ (a - j - 1) * (2 * m + 1)) := by
      obtain ⟨t, ht⟩ : ∃ t, a - j = t + 1 := ⟨a - j - 1, by omega⟩
      rw [ht, Nat.add_sub_cancel, pow_succ]
      ring
    rw [hsplit]
    exact Nat.mul_mod_right 2 _
  rw [h1]
  simp only [h2, decide_eq_true_eq]
  decide

/-- The lowest set bit of a nonzero number is set. -/
theorem lowBit_testBit {x : Nat} (hx : x ≠ 0) :
    Nat.testBit x (lowBit x) = true := by
  obtain ⟨m, hm⟩ := lowBit_decomp x hx
  have h := testBit_decomp_self (lowBit x) m
  rwa [← hm] at h

/-- All bits below the lowest set bit of a nonzero number are clear. -/
theorem lowBit_testBit_lt {x : Nat} (hx : x ≠ 0) {j : Nat} (hj : j < lowBit x) :
    Nat.testBit x j = false := by
  obtain ⟨m, hm⟩ := lowBit_decomp x hx
  have h := testBit_decomp_lt (lowBit x) m j hj
  rwa [← hm] at h

/-- Shifting right by `k` subtracts `k` from the base-two logarithm when
`2 ^ k` still fits below the value. -/
theorem log2_shift {x : Nat} (k : Nat) (h : 2 ^ k ≤ x) :
    Nat.log2 x = k + Nat.log2 (x >>> k) := by
  have hpow : 0 < 2 ^ k := Nat.two_pow_pos k
  have hx : x ≠ 0 := by omega
  rw [Nat.shiftRight_eq_div_pow]
  have hq : x / 2 ^ k ≠ 0 := by
    have h1 : 1 ≤ x / 2 ^ k := (Nat.one_le_div_iff hpow).mpr h
    omega
  apply Nat.le_antisymm
  · have h2 : x / 2 ^ k < 2 ^ (Nat.log2 (x / 2 ^ k) + 1) := Nat.lt_log2_self
    have h3 : x < 2 ^ (Nat.log2 (x / 2 ^ k) + 1) * 2 ^ k :=
      (Nat.div_lt_iff_lt_mul hpow).mp h2
    have h4 : x < 2 ^ (k + (Nat.log2 (x / 2 ^ k) + 1)) := by
      rw [pow_add]
      calc x < 2 ^ (Nat.log2 (x / 2 ^ k) + 1) * 2 ^ k := h3
        _ = 2 ^ k * 2 ^ (Nat.log2 (x / 2 ^ k) + 1) := by ring
    have h5 := (Nat.log2_lt hx).mpr h4
    omega
  · apply (Nat.le_log2 hx).mpr
    rw [pow_add]
    calc 2 ^ k * 2 ^ Nat.log2 (x / 2 ^ k)
        ≤ 2 ^ k * (x / 2 ^ k) := Nat.mul_le_mul_left _ (Nat.log2_self_le hq)
      _ ≤ x := by
          rw [mul_comm]
          exact Nat.div_mul_le_self x (2 ^ k)

/-- Last LSB rung on `2 ^ a * odd` with `a` in range: yields `r - 1 + a`. -/
theorem lsb1_eq (a m r : Nat) (ha : a < 2) (hr : 1 ≤ r) :
    lsb1 (2 ^ a * (2 * m + 1)) r = r - 1 + a := by
  rw [lsb1]
  split_ifs with h
  · have ha1 : a < 1 := (decomp_and_mask_pos a m 1).mp h
    omega
  · have ha1 : 1 ≤ a := by
      by_contra hc
      exact h ((decomp_and_mask_pos a m 1).mpr (by omega))
    omega

/-- Last LSB rung on `2 ^ a * odd` with `a` too high: leaves `r` unchanged. -/
theorem lsb1_high (a m r : Nat) (ha : 2 ≤ a) :
    lsb1 (2 ^ a * (2 * m + 1)) r = r := by
  rw [lsb1]
  split_ifs with h
  · have ha1 : a < 1 := (decomp_and_mask_pos a m 1).mp h
    omega
  · rfl

/-- Two-bit LSB rung on `2 ^ a * odd` with `a` in range: yields `r - 3 + a`. -/
theorem lsb2_eq (a m r : Nat) (ha : a < 4) (hr : 3 ≤ r) :
    lsb2 (2 ^ a * (2 * m + 1)) r = r - 3 + a := by
  rw [lsb2]
  split_ifs with h
  · have ha2 : a < 2 := (decomp_and_mask_pos a m 2).mp h
    rw [lsb1_eq a m (r - 2) ha2 (by omega)]
    omega
  · have ha2 : 2 ≤ a := by
      by_contra hc
      exact h ((decomp_and_mask_pos a m 2).mpr (by omega))
    rw [decomp_shiftRight a m 2 (by omega), lsb1_eq (a - 2) m r (by omega) (by omega)]
    omega

/-- Two-bit LSB rung on `2 ^ a * odd` with `a` too high: leaves `r`
unchanged. -/
theorem lsb2_high (a m r : Nat) (ha : 4 ≤ a) :
    lsb2 (2 ^ a * (2 * m + 1)) r = r := by
  rw [lsb2]
  split_ifs with h
  · have ha2 : a < 2 := (decomp_and_mask_pos a m 2).mp h
    omega
  · rw [decomp_shiftRight a m 2 (by omega)]
    exact lsb1_high (a - 2) m r (by omega)

/-- Nibble LSB rung on `2 ^ a * odd` with `a` in range: yields `r - 7 + a`. -/
theorem lsb4_eq (a m r : Nat) (ha : a < 8) (hr : 7 ≤ r) :
    lsb4 (2 ^ a * (2 * m + 1)) r = r - 7 + a := by
  rw [lsb4]
  split_ifs with h
  · have ha4 : a < 4 := (decomp_and_mask_pos a m 4).mp h
    rw [lsb2_eq a m (r - 4) ha4 (by omega)]
    omega
  · have ha4 : 4 ≤ a := by
      by_contra hc
      exact h ((decomp_and_mask_pos a m 4).mpr (by omega))
    rw [decomp_shiftRight a m 4 (by omega), lsb2_eq (a - 4) m r (by omega) (by omega)]
    omega

/-- Nibble LSB rung on `2 ^ a * odd` with `a` too high: leaves `r`
unchanged. -/
theorem lsb4_high (a m r : Nat) (ha : 8 ≤ a) :
    lsb4 (2 ^ a * (2 * m + 1)) r = r := by
  rw [lsb4]
  split_ifs with h
  · have ha4 : a < 4 := (decomp_and_mask_pos a m 4).mp h
    omega
  · rw [decomp_shiftRight a m 4 (by omega)]
    exact lsb2_high (a - 4) m r (by omega)

/-- Byte LSB rung on `2 ^ a * odd` with `a` in range: yields `r - 15 + a`. -/
theorem lsb8_eq (a m r : Nat) (ha : a < 16) (hr : 15 ≤ r) :
    lsb8 (2 ^ a * (2 * m + 1)) r = r - 15 + a := by
  rw [lsb8]
  split_ifs with h
  · have ha8 : a < 8 := (decomp_and_mask_pos a m 8).mp h
    rw [lsb4_eq a m (r - 8) ha8 (by omega)]
    omega
  · have ha8 : 8 ≤ a := by
      by_contra hc
      exact h ((decomp_and_mask_pos a m 8).mpr (by omega))
    rw [decomp_shiftRight a m 8 (by omega), lsb4_eq (a - 8) m r (by omega) (by omega)]
    omega

/-- Byte LSB rung on `2 ^ a * odd` with `a` too high: leaves `r`
unchanged. -/
theorem lsb8_high (a m r : Nat) (ha : 16 ≤ a) :
    lsb8 (2 ^ a * (2 * m + 1)) r = r := by
  rw [lsb8]
  split_ifs with h
  · have ha8 : a < 8 := (decomp_and_mask_pos a m 8).mp h
    omega
  · rw [decomp_shiftRight a m 8 (by omega)]
    exact lsb4_high (a - 8) m r (by omega)

/-- Sixteen-bit LSB rung on `2 ^ a * odd` with `a` in range: yields
`r - 31 + a`. -/
theorem lsb16_eq (a m r : Nat) (ha : a < 32) (hr : 31 ≤ r) :
    lsb16 (2 ^ a * (2 * m + 1)) r = r - 31 + a := by
  rw [lsb16]
  split_ifs with h
  · have ha16 : a < 16 := (decomp_and_mask_pos a m 16).mp h
    rw [lsb8_eq a m (r - 16) ha16 (by omega)]
    omega
  · have ha16 : 16 ≤ a := by
      by_contra hc
      exact h ((decomp_and_mask_pos a m 16).mpr (by omega))
    rw [decomp_shiftRight a m 16 (by omega), lsb8_eq (a - 16) m r (by omega) (by omega)]
    omega

/-- Sixteen-bit LSB rung on `2 ^ a * odd` with `a` too high: leaves `r`
unchanged. -/
theorem lsb16_high (a m r : Nat) (ha : 32 ≤ a) :
    lsb16 (2 ^ a * (2 * m + 1)) r = r := by
  rw [lsb16]
  split_ifs with h
  · have ha16 : a < 16 := (decomp_and_mask_pos a m 16).mp h
    omega
  · rw [decomp_shiftRight a m 16 (by omega)]
    exact lsb8_high (a - 16) m r (by omega)

/-- Thirty-two-bit LSB rung on `2 ^ a * odd` with `a` in range: yields
`r - 63 + a`. -/
theorem lsb32_eq (a m r : Nat) (ha : a < 64) (hr : 63 ≤ r) :
    lsb32 (2 ^ a * (2 * m + 1)) r = r - 63 + a := by
  rw [lsb32]
  split_ifs with h
  · have ha32 : a < 32 := (decomp_and_mask_pos a m 32).mp h
    rw [lsb16_eq a m (r - 32) ha32 (by omega)]
    omega
  · have ha32 : 32 ≤ a := by
      by_contra hc
      exact h ((decomp_and_mask_pos a m 32).mpr (by omega))
    rw [decomp_shiftRight a m 32 (by omega), lsb16_eq (a - 32) m r (by omega) (by omega)]
    omega

/-- Thirty-two-bit LSB rung on `2 ^ a * odd` with `a` too high: leaves `r`
unchanged. -/
theorem lsb32_high (a m r : Nat) (ha : 64 ≤ a) :
    lsb32 (2 ^ a * (2 * m + 1)) r = r := by
  rw [lsb32]
  split_ifs with h
  · have ha32 : a < 32 := (decomp_and_mask_pos a m 32).mp h
    omega
  · rw [decomp_shiftRight a m 32 (by omega)]
    exact lsb16_high (a - 32) m r (by omega)

/-- Full LSB ladder on `2 ^ a * odd` below `2 ^ 128`: the first rung always
fires, after which the remaining rungs find `a` when `a < 64` and bottom out
at `63` otherwise. -/
theorem lsb64_eval (a m : Nat) (h128 : 2 ^ a * (2 * m + 1) < 2 ^ 128) :
    lsb64 (2 ^ a * (2 * m + 1)) 127 = if a < 64 then a else 63 := by
  have ha128 : a < 128 := by
    by_contra hc
    have hle : 2 ^ 128 ≤ 2 ^ a := Nat.pow_le_pow_right (by norm_num) (by omega)
    have hle2 : 2 ^ a ≤ 2 ^ a * (2 * m + 1) := Nat.le_mul_of_pos_right _ (by omega)
    omega
  rw [lsb64]
  split_ifs with h hlt
  · rw [lsb32_eq a m (127 - 64) hlt (by omega)]
    omega
  · rw [lsb32_high a m (127 - 64) (by omega)]
  · exact absurd ((decomp_and_mask_pos a m 128).mpr ha128) h
  · exact absurd ((decomp_and_mask_pos a m 128).mpr ha128) h

/-- Evaluation of `least_significant_bit` on any nonzero 128-bit value: the
result is the lowest set bit when that lies in the low 64 bits, and `63`
otherwise. -/
theorem lsb_spec {v : Nat} (h0 : v ≠ 0) (h128 : v < 2 ^ 128) :
    least_significant_bit v =
      Except.ok (if lowBit v < 64 then lowBit v else 63) := by
  obtain ⟨m, hm⟩ := lowBit_decomp v h0
  rw [least_significant_bit, if_neg h0]
  have h := lsb64_eval (lowBit v) m (hm ▸ h128)
  rw [← hm] at h
  rw [h]

/-- A right shift by `k` of a value at least `2 ^ k` is nonzero. -/
theorem shiftRight_ne_zero {x : Nat} (k : Nat) (h : 2 ^ k ≤ x) : x >>> k ≠ 0 := by
  rw [Nat.shiftRight_eq_div_pow]
  have h1 := (Nat.one_le_div_iff (Nat.two_pow_pos k)).mpr h
  omega

/-- A right shift by `k` of a value below `2 ^ (k + j)` lands below `2 ^ j`. -/
theorem shiftRight_lt {x k j : Nat} (h : x < 2 ^ (k + j)) : x >>> k < 2 ^ j := by
  rw [Nat.shiftRight_eq_div_pow]
  apply (Nat.div_lt_iff_lt_mul (Nat.two_pow_pos k)).mpr
  calc x < 2 ^ (k + j) := h
    _ = 2 ^ j * 2 ^ k := by rw [← pow_add, Nat.add_comm]

/-- Last MSB rung: on a nonzero `x` below `2 ^ 2` it adds `Nat.log2 x`. -/
theorem msb1_eq (x r : Nat) (hx : x ≠ 0) (hlt : x < 2 ^ 2) :
    msb1 x r = r + Nat.log2 x := by
  rw [msb1]
  split_ifs with h
  · have hle := (Nat.le_log2 hx).mpr (show 2 ^ 1 ≤ x from h)
    have hlt2 := (Nat.log2_lt hx).mpr hlt
    omega
  · have hlt2 := (Nat.log2_lt hx).mpr (show x < 2 ^ 1 by omega)
    omega

/-- Two-bit MSB rung: on a nonzero `x` below `2 ^ 4` it adds `Nat.log2 x`. -/
theorem msb2_eq (x r : Nat) (hx : x ≠ 0) (hlt : x < 2 ^ 4) :
    msb2 x r = r + Nat.log2 x := by
  rw [msb2]
  split_ifs with h
  · have hk : 2 ^ 2 ≤ x := h
    rw [msb1_eq (x >>> 2) (r + 2) (shiftRight_ne_zero 2 hk) (shiftRight_lt hlt)]
    have hs := log2_shift 2 hk
    omega
  · exact msb1_eq x r hx (by omega)

/-- Nibble MSB rung: on a nonzero `x` below `2 ^ 8` it adds `Nat.log2 x`. -/
theorem msb4_eq (x r : Nat) (hx : x ≠ 0) (hlt : x < 2 ^ 8) :
    msb4 x r = r + Nat.log2 x := by
  rw [msb4]
  split_ifs with h
  · have hk : 2 ^ 4 ≤ x := h
    rw [msb2_eq (x >>> 4) (r + 4) (shiftRight_ne_zero 4 hk) (shiftRight_lt hlt)]
    have hs := log2_shift 4 hk
    omega
  · exact msb2_eq x r hx (by omega)

/-- Byte MSB rung: on a nonzero `x` below `2 ^ 16` it adds `Nat.log2 x`. -/
theorem msb8_eq (x r : Nat) (hx : x ≠ 0) (hlt : x < 2 ^ 16) :
    msb8 x r = r + Nat.log2 x := by
  rw [msb8]
  split_ifs with h
  · have hk : 2 ^ 8 ≤ x := h
    rw [msb4_eq (x >>> 8) (r + 8) (shiftRight_ne_zero 8 hk) (shiftRight_lt hlt)]
    have hs := log2_shift 8 hk
    omega
  · exact msb4_eq x r hx (by omega)

/-- Sixteen-bit MSB rung: on a nonzero `x` below `2 ^ 32` it adds
`Nat.log2 x`. -/
theorem msb16_eq (x r : Nat) (hx : x ≠ 0) (hlt : x < 2 ^ 32) :
    msb16 x r = r + Nat.log2 x := by
  rw [msb16]
  split_ifs with h
  · have hk : 2 ^ 16 ≤ x := h
    rw [msb8_eq (x >>> 16) (r + 16) (shiftRight_ne_zero 16 hk) (shiftRight_lt hlt)]
    have hs := log2_shift 16 hk
    omega
  · exact msb8_eq x r hx (by omega)

/-- Thirty-two-bit MSB rung: on a nonzero `x` below `2 ^ 64` it adds
`Nat.log2 x`. -/
theorem msb32_eq (x r : Nat) (hx : x ≠ 0) (hlt : x < 2 ^ 64) :
    msb32 x r = r + Nat.log2 x := by
  rw [msb32]
  split_ifs with h
  · have hk : 2 ^ 32 ≤ x := h
    rw [msb16_eq (x >>> 32) (r + 32) (shiftRight_ne_zero 32 hk) (shiftRight_lt hlt)]
    have hs := log2_shift 32 hk
    omega
  · exact msb16_eq x r hx (by omega)

/-- Full MSB ladder: on a nonzero `x` below `2 ^ 128` it adds `Nat.log2 x`. -/
theorem msb64_eq (x r : Nat) (hx : x ≠ 0) (hlt : x < 2 ^ 128) :
    msb64 x r = r + Nat.log2 x := by
  rw [msb64]
  split_ifs with h
  · have hk : 2 ^ 64 ≤ x := h
    rw [msb32_eq (x >>> 64) (r + 64) (shiftRight_ne_zero 64 hk) (shiftRight_lt hlt)]
    have hs := log2_shift 64 hk
    omega
  · exact msb32_eq x r hx (by omega)

/-- Evaluation of `most_significant_bit` on any nonzero 128-bit value: the
result is the base-two logarithm, i.e. the index of the highest set bit. -/
theorem msb_spec {v : Nat} (h0 : v ≠ 0) (h128 : v < 2 ^ 128) :
    most_significant_bit v = Except.ok (Nat.log2 v) := by
  rw [most_significant_bit, if_neg h0, msb64_eq v 0 h0 h128, Nat.zero_add]

example : most_significant_bit 128 = Except.ok 7 := rfl

example : least_significant_bit 16 = Except.ok 4 := rfl

/-- C1: the spec invariant — every returned index lies in `[0, 127]` and
denotes a set bit of the input — fails on the code: `least_significant_bit`
applied to `2 ^ 64` (a nonzero 128-bit value whose low 64 bits are all zero)
returns index `63`, yet bit `63` of `2 ^ 64` is clear.  The function's own
documentation promises the index of the least significant bit, so this is a
defect of the code (its first mask is 128 bits wide instead of 64). -/
theorem C1_lsb_returns_unset_bit_index :
    least_significant_bit (2 ^ 64) = Except.ok 63 ∧
      Nat.testBit (2 ^ 64) 63 = false :=
  ⟨rfl, by decide⟩

/-- C2: the single-bit property `least_significant_bit (2 ^ k) = k` fails on
the code at `k = 64`: the result is `63`, not `64` (while
`most_significant_bit (2 ^ 64) = 64` holds).  The code contradicts its own
documentation, which promises the least-significant-bit index. -/
theorem C2_single_bit_eval_at_64 :
    most_significant_bit (2 ^ 64) = Except.ok 64 ∧
      least_significant_bit (2 ^ 64) = Except.ok 63 :=
  ⟨rfl, rfl⟩

/-- C3: for every nonzero 128-bit value, `most_significant_bit` returns the
zero-based index of the highest set bit, i.e. the unique `r` with
`2 ^ r ≤ value < 2 ^ (r + 1)`. -/
theorem C3_msb_highest_set_bit (v : Nat) (h0 : 0 < v) (h128 : v < 2 ^ 128) :
    ∃ r, most_significant_bit v = Except.ok r ∧ 2 ^ r ≤ v ∧ v < 2 ^ (r + 1) :=
  ⟨Nat.log2 v, msb_spec (by omega) h128, Nat.log2_self_le (by omega),
    Nat.lt_log2_self⟩

/-- Witness for C3 at the concrete input `5`. -/
theorem C3_witness :
    0 < 5 ∧ 5 < 2 ^ 128 ∧
      ∃ r, most_significant_bit 5 = Except.ok r ∧ 2 ^ r ≤ 5 ∧ 5 < 2 ^ (r + 1) :=
  ⟨by norm_num, by norm_num, C3_msb_highest_set_bit 5 (by norm_num) (by norm_num)⟩

/-- C4: on the decoded value `0` both functions fail with the error message
`Input must be greater than 0` rather than returning any index. -/
theorem C4_zero_input_error :
    most_significant_bit 0 = Except.error "Input must be greater than 0" ∧
      least_significant_bit 0 = Except.error "Input must be greater than 0" :=
  ⟨rfl, rfl⟩

/-- C5: for nonzero `a ≤ b` (both 128-bit), the index returned by
`most_significant_bit` is monotone. -/
theorem C5_msb_monotone (a b : Nat) (ha : 0 < a) (hab : a ≤ b)
    (hb : b < 2 ^ 128) :
    ∃ ra rb, most_significant_bit a = Except.ok ra ∧
      most_significant_bit b = Except.ok rb ∧ ra ≤ rb := by
  have ha0 : a ≠ 0 := by omega
  have hb0 : b ≠ 0 := by omega
  refine ⟨Nat.log2 a, Nat.log2 b, msb_spec ha0 (by omega), msb_spec hb0 hb, ?_⟩
  exact (Nat.le_log2 hb0).mpr (le_trans (Nat.log2_self_le ha0) hab)

/-- Witness for C5 at the concrete inputs `1 ≤ 2`. -/
theorem C5_witness :
    0 < 1 ∧ (1 : Nat) ≤ 2 ∧ 2 < 2 ^ 128 ∧
      ∃ ra rb, most_significant_bit 1 = Except.ok ra ∧
        most_significant_bit 2 = Except.ok rb ∧ ra ≤ rb :=
  ⟨by norm_num, by norm_num, by norm_num,
    C5_msb_monotone 1 2 (by norm_num) (by norm_num) (by norm_num)⟩

/-- C6: at `2 ^ 70 + 1` (bits 0 and 70 set) `most_significant_bit` returns
`70` and `least_significant_bit` returns `0`. -/
theorem C6_mixed_bits_eval :
    most_significant_bit (2 ^ 70 + 1) = Except.ok 70 ∧
      least_significant_bit (2 ^ 70 + 1) = Except.ok 0 :=
  ⟨rfl, rfl⟩

/-- C7: at `2 ^ 128 - 1` (all 128 bits set) `most_significant_bit` returns
`127` and `least_significant_bit` returns `0`. -/
theorem C7_all_bits_set_eval :
    most_significant_bit (2 ^ 128 - 1) = Except.ok 127 ∧
      least_significant_bit (2 ^ 128 - 1) = Except.ok 0 :=
  ⟨rfl, rfl⟩

/-- C8: in `least_significant_bit`, for every nonzero 128-bit input the
first rung's test `x & (2 ^ 128 - 1) > 0` is true, so the first rung
subtracts `64` from `r` and never takes the else branch that would shift
`x` right by 64 bits. -/
theorem C8_first_step_always_fires (x : Nat) (h0 : 0 < x)
    (h128 : x < 2 ^ 128) :
    0 < x &&& 0xFFFFFFFFFFFFFFFFFFFFFFFFFFFFFFFF ∧
      lsb64 x 127 = lsb32 x (127 - 64) := by
  have hpos : 0 < x &&& 0xFFFFFFFFFFFFFFFFFFFFFFFFFFFFFFFF := by
    have heq : x &&& 0xFFFFFFFFFFFFFFFFFFFFFFFFFFFFFFFF = x % 2 ^ 128 :=
      Nat.and_pow_two_sub_one_eq_mod x 128
    rw [heq, Nat.mod_eq_of_lt h128]
    exact h0
  refine ⟨hpos, ?_⟩
  rw [lsb64]
  split_ifs with h
  · rfl
  · exact absurd hpos h

/-- Witness for C8 at the concrete input `1`. -/
theorem C8_witness :
    0 < 1 ∧ (1 : Nat) < 2 ^ 128 ∧
      (0 < 1 &&& 0xFFFFFFFFFFFFFFFFFFFFFFFFFFFFFFFF ∧
        lsb64 1 127 = lsb32 1 (127 - 64)) :=
  ⟨by norm_num, by norm_num,
    C8_first_step_always_fires 1 (by norm_num) (by norm_num)⟩

/-- C9: for every nonzero 128-bit input the index returned by
`least_significant_bit` is at most `63`, and on every nonzero input whose
low 64 bits are all zero it is exactly `63`. -/
theorem C9_lsb_at_most_63 (v : Nat) (h0 : 0 < v) (h128 : v < 2 ^ 128) :
    (∃ r, least_significant_bit v = Except.ok r ∧ r ≤ 63) ∧
      (v % 2 ^ 64 = 0 → least_significant_bit v = Except.ok 63) := by
  have hne : v ≠ 0 := by omega
  have hs := lsb_spec hne h128
  constructor
  · refine ⟨if lowBit v < 64 then lowBit v else 63, hs, ?_⟩
    split_ifs with h
    · omega
    · omega
  · intro hmod
    have h64 : 64 ≤ lowBit v := (mod_two_pow_eq_zero_iff hne 64).mp hmod
    rw [hs, if_neg (by omega)]

/-- Witness for C9 at the concrete input `2 ^ 64`, whose low 64 bits are all
zero. -/
theorem C9_witness :
    0 < 2 ^ 64 ∧ 2 ^ 64 < 2 ^ 128 ∧
      ((∃ r, least_significant_bit (2 ^ 64) = Except.ok r ∧ r ≤ 63) ∧
        (2 ^ 64 % 2 ^ 64 = 0 → least_significant_bit (2 ^ 64) = Except.ok 63)) :=
  ⟨by norm_num, by norm_num,
    C9_lsb_at_most_63 (2 ^ 64) (by norm_num) (by norm_num)⟩

/-- C10: for every 128-bit input whose low 64 bits are not all zero,
`least_significant_bit` returns the zero-based index of the lowest set bit,
which lies in `[0, 63]`. -/
theorem C10_lsb_correct_on_low64 (v : Nat) (h128 : v < 2 ^ 128)
    (hlow : v % 2 ^ 64 ≠ 0) :
    ∃ r, least_significant_bit v = Except.ok r ∧ r ≤ 63 ∧
      Nat.testBit v r = true ∧ ∀ j, j < r → Nat.testBit v j = false := by
  have hne : v ≠ 0 := by
    rintro rfl
    simp at hlow
  have hlt : lowBit v < 64 := by
    by_contra hc
    exact hlow ((mod_two_pow_eq_zero_iff hne 64).mpr (by omega))
  refine ⟨lowBit v, ?_, by omega, lowBit_testBit hne,
    fun j hj => lowBit_testBit_lt hne hj⟩
  rw [lsb_spec hne h128, if_pos hlt]

/-- Witness for C10 at the concrete input `12` (lowest set bit at index 2). -/
theorem C10_witness :
    (12 : Nat) < 2 ^ 128 ∧ 12 % 2 ^ 64 ≠ 0 ∧
      ∃ r, least_significant_bit 12 = Except.ok r ∧ r ≤ 63 ∧
        Nat.testBit 12 r = true ∧ ∀ j, j < r → Nat.testBit 12 j = false :=
  ⟨by norm_num, by norm_num,
    C10_lsb_correct_on_low64 12 (by norm_num) (by norm_num)⟩
